import Mathlib

/-!
# Verification of the `code_tree` directory-dump utility

Shallow embedding of `src/code_tree/src/main.rs` (Rust, using the `walkdir`
crate).  The program walks a directory tree, writes an indented tree listing
and then the contents of files whose extension is in an allow-list into a
single output document.

Modelling choices:
* The filesystem is a finite tree (`FSNode`): regular files carry the result
  of `fs::read_to_string` (`Except String String`), directories carry their
  children in native enumeration order, and `badDir` models a directory whose
  contents cannot be enumerated (walkdir then yields the directory entry
  followed by an error).
* File and directory names are `String`s (valid UTF-8; `is_ignored` in the
  source returns `false` for non-UTF-8 names via `to_str`, such names are not
  modelled).
* Paths are display strings; `pathJoin` follows `PathBuf::push` on Unix
  (a separator is inserted unless the parent already ends with one).
* `rustFileName` and `rustExtension` embed `std::path::Path::file_name` /
  `Path::extension` for Unix paths.
* The output file is modelled as the accumulated `String` written so far;
  `writeln!` appends its text plus a final newline.  Functions that can abort
  return the partial output together with `Option String` (the I/O error).
-/

/-- Splitting a character list at every occurrence of `sep`
(used to embed Unix path component parsing). -/
def splitOnCharList (sep : Char) : List Char → List (List Char)
  | [] => [[]]
  | c :: cs =>
    let r := splitOnCharList sep cs
    if c = sep then [] :: r
    else
      match r with
      | [] => [[c]]
      | h :: t => (c :: h) :: t

/-- `std::path::Path::file_name` on Unix: the last normal component of the
path; `none` when the path ends in `..`, is a root, `.`, or empty. -/
def rustFileName (p : String) : Option String :=
  let comps := (splitOnCharList '/' p.toList).filter (fun c => c ≠ [] && c ≠ ['.'])
  match comps.getLast? with
  | none => none
  | some c => if c = ['.', '.'] then none else some (String.mk c)

/-- Split a file name (as characters) at its last dot: `some (before, after)`
with `cs = before ++ dot :: after` and `after` dot-free; `none` if no dot. -/
def splitAtLastDot : List Char → Option (List Char × List Char)
  | [] => none
  | c :: rest =>
    match splitAtLastDot rest with
    | some (b, a) => some (c :: b, a)
    | none => if c = '.' then some ([], rest) else none

/-- `std::path::Path::extension` applied to a file name, embedding
`rsplit_file_at_dot`: the portion after the final dot, except that a name
equal to `..`, with no dot, or whose only dot is the leading character
(e.g. `.gitignore`) has no extension. -/
def rustExtension (file : String) : Option String :=
  if file.toList = ['.', '.'] then none
  else
    match splitAtLastDot file.toList with
    | none => none
    | some (before, after) => if before = [] then none else some (String.mk after)

/-- `PathBuf::push` / `Path::join` on Unix for a relative single component:
insert a `/` unless the parent already ends with one. -/
def pathJoin (parent name : String) : String :=
  match parent.toList.getLast? with
  | some c => if c = '/' then parent ++ name else parent ++ "/" ++ name
  | none => parent ++ "/" ++ name

/-- `str::repeat`: `n` concatenated copies of `s`. -/
def repeatStr (s : String) : Nat → String
  | 0 => ""
  | n + 1 => s ++ repeatStr s n

/-- Concatenation of a list of strings. -/
def strJoin : List String → String
  | [] => ""
  | s :: rest => s ++ strJoin rest

mutual
/-- The filesystem model.  `badDir` is a directory whose contents cannot be
enumerated: walkdir yields the directory entry, then an error. -/
inductive FSNode where
  | file (name : String) (readResult : Except String String)
  | dir (name : String) (children : FSList)
  | badDir (name : String) (errMsg : String)

inductive FSList where
  | nil
  | cons (head : FSNode) (tail : FSList)
end

/-- The on-disk name of a node. -/
def FSNode.name : FSNode → String
  | .file n _ => n
  | .dir n _ => n
  | .badDir n _ => n

deriving instance DecidableEq for Except

/-- A traversal entry, embedding walkdir's `DirEntry` as consumed by the
program: the display path, the chain of names below the root (empty for the
root itself), `DirEntry::depth`, `Path::file_name` of the entry's path
(`none` only possible for the root), the file/directory flag, and for files
the result of `fs::read_to_string`. -/
structure TEntry where
  path : String
  relPath : List String
  depth : Nat
  stdFileName : Option String
  isFile : Bool
  readResult : Except String String
deriving DecidableEq

/-- `is_ignored` from the source: does the entry's walkdir file name equal
some member of `ignored_dirs`? -/
def is_ignored (name : String) (ignored_dirs : List String) : Bool :=
  ignored_dirs.any (fun ignored => name == ignored)

mutual
/-- `WalkDir::new(root).into_iter().filter_entry(|e| !is_ignored(e, …))`
restricted to one node.  walkdir's `filter_entry` applies the predicate to
every yielded entry, the root included; an entry failing it is dropped and,
for a directory, its whole subtree (including any enumeration error) is
skipped.  `sfn` is `Path::file_name` of `path`; walkdir's
`DirEntry::file_name` falls back to the full path when that is `none`. -/
def walkSub (ign : List String) (path : String) (rel : List String)
    (sfn : Option String) (depth : Nat) : FSNode → List (Except String TEntry)
  | .file _ r =>
    if is_ignored (sfn.getD path) ign then []
    else [Except.ok ⟨path, rel, depth, sfn, true, r⟩]
  | .dir _ children =>
    if is_ignored (sfn.getD path) ign then []
    else Except.ok ⟨path, rel, depth, sfn, false, Except.ok ""⟩ ::
      walkKids ign path rel depth children
  | .badDir _ e =>
    if is_ignored (sfn.getD path) ign then []
    else [Except.ok ⟨path, rel, depth, sfn, false, Except.ok ""⟩, Except.error e]

def walkKids (ign : List String) (parentPath : String) (parentRel : List String)
    (parentDepth : Nat) : FSList → List (Except String TEntry)
  | .nil => []
  | .cons c cs =>
    walkSub ign (pathJoin parentPath c.name) (parentRel ++ [c.name])
        (some c.name) (parentDepth + 1) c
      ++ walkKids ign parentPath parentRel parentDepth cs
end

/-- The full filtered walk from the configured root.  A root that cannot be
stat'ed (`Except.error`) makes walkdir yield a single error entry; the filter
predicate is not applied to error entries. -/
def walkFS (ign : List String) (rootPath : String)
    (fs : Except String FSNode) : List (Except String TEntry) :=
  match fs with
  | .error e => [Except.error e]
  | .ok n => walkSub ign rootPath [] (rustFileName rootPath) 0 n

/-- One line of the tree section:
`writeln!(output, "{prefix}{marker}{name}")` with
`prefix = "    ".repeat(depth)`, marker `"├── "`, and
`name = path.file_name().unwrap_or_default()`. -/
def treeLine (e : TEntry) : String :=
  repeatStr "    " e.depth ++ "├── " ++ (e.stdFileName.getD "") ++ "\n"

/-- The loop body of `write_directory_tree`: write one line per yielded
entry, propagating the first traversal error (`let entry = entry?`), which
aborts with the output in its partial state. -/
def write_tree_entries : List (Except String TEntry) → String → String × Option String
  | [], acc => (acc, none)
  | Except.error e :: _, acc => (acc, some e)
  | Except.ok en :: rest, acc => write_tree_entries rest (acc ++ treeLine en)

/-- The contents-section block a single traversal entry produces: nothing for
directories, nothing for files without an allowed extension; otherwise the
header line and either the file text or the inline read-error line. -/
def fileBlock (allowed : List String) (e : TEntry) : String :=
  if e.isFile then
    match e.stdFileName.bind rustExtension with
    | some ext =>
      if allowed.contains ext then
        "\n=== File: " ++ e.path ++ " ===\n\n" ++
          (match e.readResult with
            | .ok contents => contents ++ "\n"
            | .error m => "Error reading file: " ++ m ++ "\n")
      else ""
    | none => ""
  else ""

/-- The loop body of `write_file_contents`, propagating the first traversal
error exactly like the tree pass. -/
def write_contents_entries (allowed : List String) :
    List (Except String TEntry) → String → String × Option String
  | [], acc => (acc, none)
  | Except.error e :: _, acc => (acc, some e)
  | Except.ok en :: rest, acc =>
    write_contents_entries allowed rest (acc ++ fileBlock allowed en)

/-- `Config` from the source (root path, output file, ignore set, extension
set); the verbosity chatter goes to stdout and is not part of the artifact. -/
structure Config where
  root_path : String
  output_file : String
  ignored_dirs : List String
  allowed_extensions : List String
deriving DecidableEq

/-- The built-in ignored-directory set. -/
def defaultIgnoredDirs : List String :=
  [".git", "node_modules", "target", ".idea", "venv", "bin", "obj", "Debug", "Release"]

/-- The built-in allowed-extension set. -/
def defaultAllowedExtensions : List String :=
  ["rs", "js", "py", "cpp", "c", "java", "go", "ts",
   "cs", "csproj", "sln", "cshtml", "razor", "json", "xml", "config", "yml", "yaml"]

/-- `Config::new`: defaults for everything except the root path. -/
def Config.new (root_path : String) : Config :=
  ⟨root_path, "code_output.txt", defaultIgnoredDirs, defaultAllowedExtensions⟩

/-- `write_directory_tree` from the source: the filtered walk rendered as
tree lines. -/
def write_directory_tree (cfg : Config) (fs : Except String FSNode)
    (acc : String) : String × Option String :=
  write_tree_entries (walkFS cfg.ignored_dirs cfg.root_path fs) acc

/-- `write_file_contents` from the source: the same filtered walk, emitting
per-file content blocks. -/
def write_file_contents (cfg : Config) (fs : Except String FSNode)
    (acc : String) : String × Option String :=
  write_contents_entries cfg.allowed_extensions (walkFS cfg.ignored_dirs cfg.root_path fs) acc

/-- `process_directory`: title line, root line, tree section, contents
header, contents section; a traversal error in a pass aborts with the output
in its partial state. -/
def process_directory (cfg : Config) (fs : Except String FSNode) : String × Option String :=
  let out2 := "Directory Tree and Code Contents\n\n" ++
    ("Root Directory: " ++ cfg.root_path ++ "\n\n")
  match write_directory_tree cfg fs out2 with
  | (out3, some e) => (out3, some e)
  | (out3, none) =>
    write_file_contents cfg fs (out3 ++ "\nCode Contents:\n\n")

/-- Observable result of a run: the process exit code, the usage lines
printed on a usage error, whether the output file was created/truncated at
all, and the final content of the output file. -/
structure MainResult where
  exitCode : Nat
  usageLines : List String
  outputTouched : Bool
  output : String
deriving DecidableEq

/-- `main` from the source: exactly one argument besides the program name is
required; otherwise print usage and `exit(1)` before the output file is
created.  With a root argument, run `process_directory` on the default
configuration; returning `Err` from `main` exits with code 1. -/
def main_model (args : List String) (fs : Except String FSNode) : MainResult :=
  if args.length ≠ 2 then
    { exitCode := 1,
      usageLines := ["Usage: " ++ args.headD "" ++ " <directory_path>",
                     "Example: " ++ args.headD "" ++ " ."],
      outputTouched := false,
      output := "" }
  else
    match process_directory (Config.new (args.getD 1 "")) fs with
    | (out, none) => ⟨0, [], true, out⟩
    | (out, some _) => ⟨1, [], true, out⟩

/-- The extension of a file name exactly as the spec words it: the substring
after the last `.`, with only dot-free names having no extension.
(Spec-side definition, for comparison with `rustExtension`.) -/
def specExtension (file : String) : Option String :=
  match splitAtLastDot file.toList with
  | none => none
  | some (_, after) => some (String.mk after)

/-- The first traversal error in a stream of yielded entries, if any:
the error at which `let entry = entry?` aborts a write pass. -/
def firstErr : List (Except String TEntry) → Option String
  | [] => none
  | Except.error e :: _ => some e
  | Except.ok _ :: rest => firstErr rest

/-- The entries a write pass consumes: those before the first traversal
error. -/
def okPrefix : List (Except String TEntry) → List TEntry
  | [] => []
  | Except.error _ :: _ => []
  | Except.ok e :: rest => e :: okPrefix rest

/-- The tree section text produced from a stream of entries. -/
def treeOut : List (Except String TEntry) → String
  | [] => ""
  | Except.error _ :: _ => ""
  | Except.ok e :: rest => treeLine e ++ treeOut rest

/-- The contents section text produced from a stream of entries. -/
def contentsOut (allowed : List String) : List (Except String TEntry) → String
  | [] => ""
  | Except.error _ :: _ => ""
  | Except.ok e :: rest => fileBlock allowed e ++ contentsOut allowed rest

/-- Sample tree: a root with a source file, a text file and a
`node_modules` subdirectory (the scenario from the spec). -/
def sampleFS : FSNode :=
  FSNode.dir "r"
    (FSList.cons (FSNode.file "a.rs" (Except.ok "fn main()"))
      (FSList.cons (FSNode.file "b.txt" (Except.ok "hello"))
        (FSList.cons
          (FSNode.dir "node_modules"
            (FSList.cons (FSNode.file "c.js" (Except.ok "x")) FSList.nil))
          FSList.nil)))

/-- Fixture: a selected file whose read fails. -/
def badEntry : TEntry := ⟨"r/bad.rs", ["bad.rs"], 1, some "bad.rs", true, Except.error "denied"⟩

/-- Fixture: the root entry the walk yields for root path `r`. -/
def rootEntryR : TEntry := ⟨"r", [], 0, some "r", false, Except.ok ""⟩

/-! ## Helper lemmas -/

theorem str_empty_append (s : String) : "" ++ s = s := by
  cases s
  rfl

theorem str_data_append (a b : String) : (a ++ b).data = a.data ++ b.data := by
  cases a
  cases b
  rfl

theorem str_append_ne_empty_left (a b : String) (h : a.data ≠ []) : a ++ b ≠ "" := by
  intro hab
  apply h
  have h2 : (a ++ b).data = ("" : String).data := by rw [hab]
  rw [str_data_append] at h2
  exact (List.append_eq_nil.mp h2).1

theorem write_tree_entries_eq (l : List (Except String TEntry)) (acc : String) :
    write_tree_entries l acc = (acc ++ treeOut l, firstErr l) := by
  induction l generalizing acc with
  | nil => simp [write_tree_entries, treeOut, firstErr]
  | cons hd tl ih =>
    cases hd with
    | error e => simp [write_tree_entries, treeOut, firstErr]
    | ok en =>
      simp [write_tree_entries, treeOut, firstErr, ih, String.append_assoc]

theorem write_contents_entries_eq (allowed : List String)
    (l : List (Except String TEntry)) (acc : String) :
    write_contents_entries allowed l acc = (acc ++ contentsOut allowed l, firstErr l) := by
  induction l generalizing acc with
  | nil => simp [write_contents_entries, contentsOut, firstErr]
  | cons hd tl ih =>
    cases hd with
    | error e => simp [write_contents_entries, contentsOut, firstErr]
    | ok en =>
      simp [write_contents_entries, contentsOut, firstErr, ih, String.append_assoc]

theorem firstErr_isSome_iff (l : List (Except String TEntry)) :
    (firstErr l).isSome = true ↔ ∃ msg, Except.error msg ∈ l := by
  induction l with
  | nil => simp [firstErr]
  | cons hd tl ih =>
    cases hd with
    | error e => simp [firstErr]
    | ok en => simpa [firstErr] using ih

theorem treeOut_eq_join (l : List (Except String TEntry)) :
    treeOut l = strJoin ((okPrefix l).map treeLine) := by
  induction l with
  | nil => rfl
  | cons hd tl ih =>
    cases hd with
    | error e => rfl
    | ok en => simp [treeOut, okPrefix, strJoin, ih]

theorem mem_of_mem_okPrefix {e : TEntry} {l : List (Except String TEntry)}
    (h : e ∈ okPrefix l) : Except.ok e ∈ l := by
  induction l with
  | nil => simp [okPrefix] at h
  | cons hd tl ih =>
    cases hd with
    | error m => simp [okPrefix] at h
    | ok en =>
      rcases (by simpa [okPrefix] using h : e = en ∨ e ∈ okPrefix tl) with h1 | h1
      · simp [h1]
      · exact List.mem_cons_of_mem _ (ih h1)

theorem process_directory_eq (cfg : Config) (fs : Except String FSNode) :
    process_directory cfg fs =
      match firstErr (walkFS cfg.ignored_dirs cfg.root_path fs) with
      | some e =>
        ("Directory Tree and Code Contents\n\n" ++
          ("Root Directory: " ++ cfg.root_path ++ "\n\n") ++
          treeOut (walkFS cfg.ignored_dirs cfg.root_path fs), some e)
      | none =>
        ("Directory Tree and Code Contents\n\n" ++
          ("Root Directory: " ++ cfg.root_path ++ "\n\n") ++
          treeOut (walkFS cfg.ignored_dirs cfg.root_path fs) ++
          "\nCode Contents:\n\n" ++
          contentsOut cfg.allowed_extensions (walkFS cfg.ignored_dirs cfg.root_path fs),
         none) := by
  unfold process_directory write_directory_tree write_file_contents
  simp only [write_tree_entries_eq, write_contents_entries_eq]
  cases h : firstErr (walkFS cfg.ignored_dirs cfg.root_path fs) with
  | none => simp [h, String.append_assoc]
  | some e => simp [h, String.append_assoc]

mutual
theorem walkSub_meta (ign : List String) (path : String) (rel : List String)
    (sfn : Option String) (depth : Nat) (n : FSNode) (en : TEntry)
    (hmem : Except.ok en ∈ walkSub ign path rel sfn depth n)
    (hd : depth = rel.length) :
    is_ignored (sfn.getD path) ign = false ∧
    (∃ suffix, en.relPath = rel ++ suffix ∧
      ∀ comp ∈ suffix, is_ignored comp ign = false) ∧
    en.depth = en.relPath.length ∧
    ((en.relPath = rel ∧ en.stdFileName = sfn) ∨
      (∃ nm, en.relPath.getLast? = some nm ∧ en.stdFileName = some nm)) := by
  cases n with
  | file nm r =>
    cases hig : is_ignored (sfn.getD path) ign with
    | true => simp [walkSub, hig] at hmem
    | false =>
      simp [walkSub, hig] at hmem
      subst hmem
      exact ⟨rfl, ⟨[], by simp, by simp⟩, by simp [hd], Or.inl ⟨rfl, rfl⟩⟩
  | dir nm children =>
    cases hig : is_ignored (sfn.getD path) ign with
    | true => simp [walkSub, hig] at hmem
    | false =>
      simp only [walkSub, hig, Bool.false_eq_true, if_false, List.mem_cons] at hmem
      rcases hmem with hmem | hmem
      · rw [Except.ok.injEq] at hmem
        subst hmem
        exact ⟨rfl, ⟨[], by simp, by simp⟩, by simp [hd], Or.inl ⟨rfl, rfl⟩⟩
      · obtain ⟨⟨suffix, heq, hne, hcomp⟩, hdep, hlast⟩ :=
          walkKids_meta ign path rel depth children en hmem hd
        exact ⟨rfl, ⟨suffix, heq, hcomp⟩, hdep, Or.inr hlast⟩
  | badDir nm msg =>
    cases hig : is_ignored (sfn.getD path) ign with
    | true => simp [walkSub, hig] at hmem
    | false =>
      simp [walkSub, hig] at hmem
      subst hmem
      exact ⟨rfl, ⟨[], by simp, by simp⟩, by simp [hd], Or.inl ⟨rfl, rfl⟩⟩

theorem walkKids_meta (ign : List String) (pp : String) (prel : List String)
    (pd : Nat) (l : FSList) (en : TEntry)
    (hmem : Except.ok en ∈ walkKids ign pp prel pd l)
    (hd : pd = prel.length) :
    (∃ suffix, en.relPath = prel ++ suffix ∧ suffix ≠ [] ∧
      ∀ comp ∈ suffix, is_ignored comp ign = false) ∧
    en.depth = en.relPath.length ∧
    (∃ nm, en.relPath.getLast? = some nm ∧ en.stdFileName = some nm) := by
  cases l with
  | nil => simp [walkKids] at hmem
  | cons c cs =>
    simp only [walkKids, List.mem_append] at hmem
    rcases hmem with hmem | hmem
    · have hd2 : pd + 1 = (prel ++ [c.name]).length := by simp [hd]
      obtain ⟨hA, ⟨suf, heq, hcomp⟩, hdep, hD⟩ :=
        walkSub_meta ign (pathJoin pp c.name) (prel ++ [c.name])
          (some c.name) (pd + 1) c en hmem hd2
      have hAn : is_ignored c.name ign = false := by simpa using hA
      refine ⟨⟨c.name :: suf, ?_, by simp, ?_⟩, hdep, ?_⟩
      · rw [heq, List.append_assoc]
        rfl
      · intro comp hcm
        rcases List.mem_cons.mp hcm with h1 | h1
        · rw [h1]; exact hAn
        · exact hcomp comp h1
      · rcases hD with ⟨hrel, hsfn⟩ | hr
        · exact ⟨c.name, by rw [hrel]; exact List.getLast?_concat _, hsfn⟩
        · exact hr
    · exact walkKids_meta ign pp prel pd cs en hmem hd
end

/-! ## Claims -/

/-- C1 (counterexample): walkdir's `filter_entry` does test the root entry,
so with root path `node_modules` (a member of the default ignore set) the
walk yields nothing at all and the output has an empty tree section and an
empty contents section — contradicting the claim that the root is never
tested and traversal output is still produced. -/
theorem C1_counterexample :
    is_ignored "node_modules" defaultIgnoredDirs = true ∧
    walkFS defaultIgnoredDirs "node_modules"
        (Except.ok (FSNode.dir "node_modules"
          (FSList.cons (FSNode.file "a.rs" (Except.ok "fn main()")) FSList.nil))) = [] ∧
    process_directory (Config.new "node_modules")
        (Except.ok (FSNode.dir "node_modules"
          (FSList.cons (FSNode.file "a.rs" (Except.ok "fn main()")) FSList.nil))) =
      ("Directory Tree and Code Contents\n\nRoot Directory: node_modules\n\n\nCode Contents:\n\n",
       none) := by
  refine ⟨by decide, by decide, by decide⟩

/-- C1 (amended): for every tree and ignore set, no yielded entry lies at or
beneath a directory whose bare name is in the ignore set (no component of
its name chain below the root is ignored, and the root's own walkdir name is
not ignored either); moreover the root IS tested, so a root whose own name
is in the ignore set produces no traversal output at all. -/
theorem C1_ignored_subtrees (ign : List String) (rootPath : String) (n : FSNode) :
    (is_ignored ((rustFileName rootPath).getD rootPath) ign = true →
      walkFS ign rootPath (Except.ok n) = []) ∧
    (∀ en : TEntry, Except.ok en ∈ walkFS ign rootPath (Except.ok n) →
      is_ignored ((rustFileName rootPath).getD rootPath) ign = false ∧
      ∀ comp ∈ en.relPath, is_ignored comp ign = false) := by
  constructor
  · intro hig
    cases n <;> simp [walkFS, walkSub, hig]
  · intro en hmem
    simp only [walkFS] at hmem
    obtain ⟨hA, ⟨suffix, heq, hcomp⟩, -, -⟩ :=
      walkSub_meta ign rootPath [] (rustFileName rootPath) 0 n en hmem rfl
    refine ⟨hA, ?_⟩
    intro comp hc
    apply hcomp
    rw [heq] at hc
    simpa using hc

/-- C1 witness: a root named `target` containing a source file yields no
traversal output under the default ignore set. -/
theorem C1_witness :
    walkFS defaultIgnoredDirs "target"
        (Except.ok (FSNode.dir "target"
          (FSList.cons (FSNode.file "b.rs" (Except.ok "y")) FSList.nil))) = [] :=
  (C1_ignored_subtrees defaultIgnoredDirs "target"
      (FSNode.dir "target" (FSList.cons (FSNode.file "b.rs" (Except.ok "y")) FSList.nil))).1
    (by decide)

/-- C2 (counterexample): the file name `.rs` has `rs` after its last dot and
`rs` is in the default allow-list, yet the code (via `Path::extension`,
which gives dotfiles no extension) emits no contents block for it. -/
theorem C2_counterexample :
    specExtension ".rs" = some "rs" ∧
    defaultAllowedExtensions.contains "rs" = true ∧
    process_directory (Config.new "r")
        (Except.ok (FSNode.dir "r"
          (FSList.cons (FSNode.file ".rs" (Except.ok "x")) FSList.nil))) =
      ("Directory Tree and Code Contents\n\nRoot Directory: r\n\n├── r\n    ├── .rs\n\nCode Contents:\n\n",
       none) := by
  refine ⟨by decide, by decide, by decide⟩

/-- C2 (amended): a visited regular file gets a contents block iff
`Path::extension` of its name — the substring after the last dot, except
that a name with no dot, a name whose only dot is its leading character,
and `..` have no extension — is a member of the allowed set, compared by
exact case-sensitive string equality. -/
theorem C2_extension_filter (allowed : List String) (p : String)
    (rp : List String) (d : Nat) (sfn : Option String) (rr : Except String String) :
    fileBlock allowed ⟨p, rp, d, sfn, true, rr⟩ ≠ "" ↔
      ∃ ext, sfn.bind rustExtension = some ext ∧
        allowed.contains ext = true := by
  cases hbind : sfn.bind rustExtension with
  | none => simp [fileBlock, hbind]
  | some ext =>
    cases hc : allowed.contains ext with
    | false =>
      have hc2 : ext ∉ allowed := by simpa using hc
      simp [fileBlock, hbind, hc2]
    | true =>
      constructor
      · intro _
        exact ⟨ext, rfl, hc⟩
      · intro _
        have hc3 : ext ∈ allowed := by simpa using hc
        have hred : fileBlock allowed ⟨p, rp, d, sfn, true, rr⟩ =
            "\n=== File: " ++ p ++ " ===\n\n" ++
              (match rr with
                | Except.ok contents => contents ++ "\n"
                | Except.error m => "Error reading file: " ++ m ++ "\n") := by
          simp [fileBlock, hbind, hc3]
        rw [hred, String.append_assoc, String.append_assoc]
        exact str_append_ne_empty_left "\n=== File: " _ (by decide)

/-- C2 witness: `a.rs` with content gets a nonempty contents block. -/
theorem C2_witness :
    fileBlock defaultAllowedExtensions
      ⟨"r/a.rs", ["a.rs"], 1, some "a.rs", true, Except.ok "x"⟩ ≠ "" :=
  (C2_extension_filter defaultAllowedExtensions "r/a.rs" ["a.rs"] 1
      (some "a.rs") (Except.ok "x")).mpr
    ⟨"rs", by decide, by decide⟩

/-- C3 (counterexample): passing the `-o` flag does not override the output
path — any invocation other than exactly one positional argument is a usage
error that exits 1 with nothing written, so no flag is ever accepted. -/
theorem C3_counterexample :
    main_model ["code_tree", "-o", "out.txt", "."] (Except.error "e") =
      { exitCode := 1,
        usageLines := ["Usage: code_tree <directory_path>", "Example: code_tree ."],
        outputTouched := false, output := "" } := by
  decide

/-- C3 (amended): the CLI accepts only the single positional root path; no
`--output`, `--ignored-dirs`, `--extensions` or `--verbose` flags exist.
Any other argument count is a usage error, and the resolved configuration
always carries the built-in defaults. -/
theorem C3_no_flags (args : List String) (fs : Except String FSNode)
    (h : args.length ≠ 2) :
    main_model args fs =
      { exitCode := 1,
        usageLines := ["Usage: " ++ args.headD "" ++ " <directory_path>",
                       "Example: " ++ args.headD "" ++ " ."],
        outputTouched := false, output := "" } ∧
    ∀ root : String, Config.new root =
      { root_path := root, output_file := "code_output.txt",
        ignored_dirs := defaultIgnoredDirs,
        allowed_extensions := defaultAllowedExtensions } := by
  exact ⟨by simp [main_model, h], fun root => rfl⟩

/-- C3 witness: a flag-style invocation is rejected as a usage error. -/
theorem C3_witness :
    main_model ["code_tree", "-e", "rs", "."] (Except.error "e") =
      { exitCode := 1,
        usageLines := ["Usage: code_tree <directory_path>", "Example: code_tree ."],
        outputTouched := false, output := "" } :=
  (C3_no_flags ["code_tree", "-e", "rs", "."] (Except.error "e") (by decide)).1

/-- C4: invoking with only the program name prints the usage and example
lines naming the invoking command, exits with code 1, and the output file is
never created or truncated. -/
theorem C4_usage_error (prog : String) (fs : Except String FSNode) :
    main_model [prog] fs =
      { exitCode := 1,
        usageLines := ["Usage: " ++ prog ++ " <directory_path>",
                       "Example: " ++ prog ++ " ."],
        outputTouched := false, output := "" } := by
  simp [main_model]

/-- C5: a selected file whose read fails still gets its header line followed
by the single inline error line, the pass continues with the remaining
entries, and the pass's error outcome (hence the exit code) is exactly what
the remaining traversal entries alone produce — the read failure never
contributes to it. -/
theorem C5_read_error_inline (allowed : List String) (p : String)
    (rp : List String) (d : Nat) (sfn : Option String) (msg : String)
    (rest : List (Except String TEntry)) (acc : String) (ext : String)
    (hx : sfn.bind rustExtension = some ext)
    (hc : allowed.contains ext = true) :
    write_contents_entries allowed
        (Except.ok ⟨p, rp, d, sfn, true, Except.error msg⟩ :: rest) acc =
      write_contents_entries allowed rest
        (acc ++ ("\n=== File: " ++ p ++ " ===\n\n" ++
          ("Error reading file: " ++ msg ++ "\n"))) ∧
    (write_contents_entries allowed
        (Except.ok ⟨p, rp, d, sfn, true, Except.error msg⟩ :: rest) acc).2 =
      firstErr rest := by
  have hc3 : ext ∈ allowed := by simpa using hc
  have hb : fileBlock allowed ⟨p, rp, d, sfn, true, Except.error msg⟩ =
      "\n=== File: " ++ p ++ " ===\n\n" ++
        ("Error reading file: " ++ msg ++ "\n") := by
    simp [fileBlock, hx, hc3]
  constructor
  · show write_contents_entries allowed rest
        (acc ++ fileBlock allowed ⟨p, rp, d, sfn, true, Except.error msg⟩) = _
    rw [hb]
  · rw [write_contents_entries_eq]
    simp [firstErr]

/-- C5 witness: a read-failing `bad.rs` produces its header plus the inline
error line and leaves the error outcome untouched. -/
theorem C5_witness :
    write_contents_entries defaultAllowedExtensions
        [Except.ok ⟨"r/bad.rs", ["bad.rs"], 1, some "bad.rs", true, Except.error "denied"⟩] "" =
      write_contents_entries defaultAllowedExtensions []
        ("" ++ ("\n=== File: " ++ "r/bad.rs" ++ " ===\n\n" ++
          ("Error reading file: " ++ "denied" ++ "\n"))) ∧
    (write_contents_entries defaultAllowedExtensions
        [Except.ok ⟨"r/bad.rs", ["bad.rs"], 1, some "bad.rs", true, Except.error "denied"⟩] "").2 =
      firstErr [] :=
  C5_read_error_inline defaultAllowedExtensions "r/bad.rs" ["bad.rs"] 1
    (some "bad.rs") "denied" [] "" "rs" (by decide) (by decide)

/-- C6: with a root argument, the run exits nonzero exactly when the
filtered walk contains a traversal error (the nonexistent root included),
and in that case the output document is left in its partial state: the
title, root line and the tree lines written before the error — no silent
skipping of the failing subtree. -/
theorem C6_traversal_error_aborts (prog root : String) (fs : Except String FSNode) :
    ((main_model [prog, root] fs).exitCode ≠ 0 ↔
      ∃ msg, Except.error msg ∈ walkFS defaultIgnoredDirs root fs) ∧
    ((∃ msg, Except.error msg ∈ walkFS defaultIgnoredDirs root fs) →
      (main_model [prog, root] fs).output =
        "Directory Tree and Code Contents\n\n" ++
        ("Root Directory: " ++ root ++ "\n\n") ++
        treeOut (walkFS defaultIgnoredDirs root fs)) := by
  have hpd : process_directory (Config.new root) fs =
      match firstErr (walkFS defaultIgnoredDirs root fs) with
      | some e =>
        ("Directory Tree and Code Contents\n\n" ++
          ("Root Directory: " ++ root ++ "\n\n") ++
          treeOut (walkFS defaultIgnoredDirs root fs), some e)
      | none =>
        ("Directory Tree and Code Contents\n\n" ++
          ("Root Directory: " ++ root ++ "\n\n") ++
          treeOut (walkFS defaultIgnoredDirs root fs) ++
          "\nCode Contents:\n\n" ++
          contentsOut defaultAllowedExtensions (walkFS defaultIgnoredDirs root fs),
         none) :=
    process_directory_eq (Config.new root) fs
  cases hfe : firstErr (walkFS defaultIgnoredDirs root fs) with
  | none =>
    have hno : ¬ ∃ msg, Except.error msg ∈ walkFS defaultIgnoredDirs root fs := by
      rw [← firstErr_isSome_iff, hfe]
      simp
    constructor
    · simp [main_model, hpd, hfe, hno]
    · intro h
      exact absurd h hno
  | some e =>
    have hyes : ∃ msg, Except.error msg ∈ walkFS defaultIgnoredDirs root fs := by
      rw [← firstErr_isSome_iff, hfe]
      rfl
    constructor
    · simp [main_model, hpd, hfe, hyes]
    · intro _
      simp [main_model, hpd, hfe]

/-- C6 witness: a nonexistent root makes the run exit nonzero. -/
theorem C6_witness :
    (main_model ["code_tree", "missing"] (Except.error "boom")).exitCode ≠ 0 :=
  (C6_traversal_error_aborts "code_tree" "missing" (Except.error "boom")).1.mpr
    ⟨"boom", by decide⟩

/-- C7: on a successful run the output is exactly the title line, the
root-directory line, the whole tree section, the contents-section header and
the whole contents section, in that order. -/
theorem C7_output_order (cfg : Config) (fs : Except String FSNode)
    (h : (process_directory cfg fs).2 = none) :
    (process_directory cfg fs).1 =
      "Directory Tree and Code Contents\n\n" ++
      ("Root Directory: " ++ cfg.root_path ++ "\n\n") ++
      treeOut (walkFS cfg.ignored_dirs cfg.root_path fs) ++
      "\nCode Contents:\n\n" ++
      contentsOut cfg.allowed_extensions (walkFS cfg.ignored_dirs cfg.root_path fs) := by
  rw [process_directory_eq] at h ⊢
  cases hfe : firstErr (walkFS cfg.ignored_dirs cfg.root_path fs) with
  | some e =>
    rw [hfe] at h
    simp at h
  | none =>
    rfl

/-- C7 witness: the sample run decomposes into the five ordered parts. -/
theorem C7_witness :
    (process_directory (Config.new "r") (Except.ok sampleFS)).1 =
      "Directory Tree and Code Contents\n\n" ++
      ("Root Directory: " ++ (Config.new "r").root_path ++ "\n\n") ++
      treeOut (walkFS (Config.new "r").ignored_dirs (Config.new "r").root_path
        (Except.ok sampleFS)) ++
      "\nCode Contents:\n\n" ++
      contentsOut (Config.new "r").allowed_extensions
        (walkFS (Config.new "r").ignored_dirs (Config.new "r").root_path
          (Except.ok sampleFS)) :=
  C7_output_order (Config.new "r") (Except.ok sampleFS) (by decide)

/-- C8: the tree pass writes exactly one line per consumed entry, each line
being the 4-space marker repeated `depth` times, the branch marker, and the
entry's bare name; the stored depth equals the entry's path depth relative
to the root, and the rendered name is the last path component (for the root
itself, `Path::file_name` of the root path). -/
theorem C8_tree_line_format (ign : List String) (root : String) (n : FSNode) :
    (write_tree_entries (walkFS ign root (Except.ok n)) "").1 =
      strJoin ((okPrefix (walkFS ign root (Except.ok n))).map treeLine) ∧
    ∀ en ∈ okPrefix (walkFS ign root (Except.ok n)),
      en.depth = en.relPath.length ∧
      (∀ nm, en.relPath.getLast? = some nm → en.stdFileName = some nm) ∧
      (en.relPath = [] → en.stdFileName = rustFileName root) := by
  constructor
  · rw [write_tree_entries_eq]
    show "" ++ treeOut _ = _
    rw [str_empty_append, treeOut_eq_join]
  · intro en hmem
    have hmem2 : Except.ok en ∈ walkFS ign root (Except.ok n) :=
      mem_of_mem_okPrefix hmem
    simp only [walkFS] at hmem2
    obtain ⟨-, -, hdep, hD⟩ :=
      walkSub_meta ign root [] (rustFileName root) 0 n en hmem2 rfl
    refine ⟨hdep, ?_, ?_⟩
    · intro nm hlast
      rcases hD with ⟨hrel, hsfn⟩ | ⟨nm2, hl2, hs2⟩
      · rw [hrel] at hlast
        simp at hlast
      · rw [hl2, Option.some.injEq] at hlast
        rw [hlast] at hs2
        exact hs2
    · intro hrel
      rcases hD with ⟨-, hsfn⟩ | ⟨nm2, hl2, -⟩
      · exact hsfn
      · rw [hrel] at hl2
        simp at hl2

/-- C8 witness: the root entry of the sample walk renders with the root
path's file name. -/
theorem C8_witness : rootEntryR.stdFileName = rustFileName "r" :=
  ((C8_tree_line_format defaultIgnoredDirs "r" sampleFS).2 rootEntryR (by decide)).2.2 rfl

/-- C9: `is_ignored` tests every entry's name, files included — a regular
file whose bare name equals an ignored-directory name yields nothing, so it
appears in neither the tree section nor the contents section. -/
theorem C9_ignored_name_file (ign : List String) (pp : String) (prel : List String)
    (pd : Nat) (nm : String) (r : Except String String) (rest : FSList)
    (h : is_ignored nm ign = true) :
    walkSub ign (pathJoin pp nm) (prel ++ [nm]) (some nm) (pd + 1) (FSNode.file nm r) = [] ∧
    walkKids ign pp prel pd (FSList.cons (FSNode.file nm r) rest) =
      walkKids ign pp prel pd rest := by
  have h1 : walkSub ign (pathJoin pp nm) (prel ++ [nm]) (some nm) (pd + 1)
      (FSNode.file nm r) = [] := by
    simp [walkSub, h]
  refine ⟨h1, ?_⟩
  simp [walkKids, FSNode.name, h1]

/-- C9 witness: a file named `target` vanishes from the walk. -/
theorem C9_witness :
    walkKids defaultIgnoredDirs "r" [] 0
        (FSList.cons (FSNode.file "target" (Except.ok "x")) FSList.nil) =
      walkKids defaultIgnoredDirs "r" [] 0 FSList.nil :=
  (C9_ignored_name_file defaultIgnoredDirs "r" [] 0 "target" (Except.ok "x")
      FSList.nil (by decide)).2

/-- C10: when the root path has no final name component (such as `.` or
`/`), the walk still yields the root entry first and its tree line is just
the branch marker with the empty name — no failure. -/
theorem C10_root_without_name (ign : List String) (rootPath : String) (n : FSNode)
    (hfn : rustFileName rootPath = none)
    (hni : is_ignored rootPath ign = false) :
    ∃ en rest, walkFS ign rootPath (Except.ok n) = Except.ok en :: rest ∧
      en.depth = 0 ∧ en.stdFileName = none ∧ treeLine en = "├── \n" := by
  have hgd : is_ignored ((rustFileName rootPath).getD rootPath) ign = false := by
    rw [hfn]
    exact hni
  cases n with
  | file nm r =>
    refine ⟨⟨rootPath, [], 0, none, true, r⟩, [], ?_, rfl, rfl, rfl⟩
    simp [walkFS, walkSub, hgd, hfn, hni]
  | dir nm children =>
    refine ⟨⟨rootPath, [], 0, none, false, Except.ok ""⟩,
      walkKids ign rootPath [] 0 children, ?_, rfl, rfl, rfl⟩
    simp [walkFS, walkSub, hgd, hfn, hni]
  | badDir nm msg =>
    refine ⟨⟨rootPath, [], 0, none, false, Except.ok ""⟩,
      [Except.error msg], ?_, rfl, rfl, rfl⟩
    simp [walkFS, walkSub, hgd, hfn, hni]

/-- C10 witness: root path `.` renders a bare branch-marker line. -/
theorem C10_witness :
    ∃ en rest, walkFS defaultIgnoredDirs "." (Except.ok sampleFS) = Except.ok en :: rest ∧
      en.depth = 0 ∧ en.stdFileName = none ∧ treeLine en = "├── \n" :=
  C10_root_without_name defaultIgnoredDirs "." sampleFS (by decide) (by decide)
